import Mathlib

/-!
# Query and sort translation of the rest-layer MongoDB storage handler

A shallow embedding of `lookup.go` (package `mongo`): `getField`, `getQuery`,
`getSort`, `translateQuery` and `valuesToInterface`, followed by theorems about them.

Conventions of the embedding:

* a Go `map[string]interface{}` (`bson.M`) is an association list with unique keys;
  the assignment `b[k] = v` is `M.set`, which replaces the entry of `k` when there
  is one and adds a new entry otherwise;
* a Go function returning `(bson.M, error)` returns `Except Error M`;
* a Go function that can stop with a run-time panic (index or slice out of range)
  returns an `Option`, `none` being the panic;
* a `for ... range` loop is a recursive function over the list being ranged over,
  carrying the variables the loop body assigns to.
-/

namespace Mongo

/-! ## Data model -/

/-- Modelled from the spec: `schema.Value` is declared in the rest-layer `schema`
package (`type Value interface{}`), which is not part of this repository. The spec
describes it as an opaque scalar (string, number, boolean, date, or null) carried
verbatim. `null` is the nil interface value. -/
inductive Value where
  | null
  | bool (b : Bool)
  | int (n : Int)
  | str (s : String)
  | time (unix : Int)
  deriving DecidableEq, Repr

/-- Modelled from the spec: `schema.Expression` is an interface declared in the
rest-layer `schema` package, which is not part of this repository. The first ten
constructors are the dynamic types `translateQuery` has a `case` for, with the field
names the source reads (`t.Field`, `t.Value`, `t.Values`); `And` and `Or` are slices
of expressions. `Other` stands for every other dynamic type an `Expression` value can
have (it reaches the `default` case of the type switch); its argument only tells such
values apart. -/
inductive Expression where
  | And (t : List Expression)
  | Or (t : List Expression)
  | In (Field : String) (Values : List Value)
  | NotIn (Field : String) (Values : List Value)
  | Equal (Field : String) (Value : Value)
  | NotEqual (Field : String) (Value : Value)
  | GreaterThan (Field : String) (Value : Value)
  | GreaterOrEqual (Field : String) (Value : Value)
  | LowerThan (Field : String) (Value : Value)
  | LowerOrEqual (Field : String) (Value : Value)
  | Other (name : String)

/-- Modelled from the spec: `schema.Query`, an ordered sequence of top-level
expressions (`type Query []Expression` in the rest-layer `schema` package). -/
abbrev Query := List Expression

/-- Modelled from the spec: the values `translateQuery` stores in a `bson.M`
(`map[string]interface{}` of the `bson` package, not part of this repository):
a raw `schema.Value`, a nested `bson.M`, a `[]bson.M` (under `$and` and `$or`), or the
`[]interface{}` built by `valuesToInterface`. -/
inductive BVal where
  | value (v : Value)
  | m (d : List (String × BVal))
  | ms (s : List (List (String × BVal)))
  | is (I : List Value)

/-- Modelled from the spec: `bson.M`, a mapping from keys to values, kept as an
association list in which every key occurs at most once. -/
abbrev M := List (String × BVal)

/-- The Go map assignment `b[k] = v`: the entry of `k` is replaced when `k` is
already a key of `b`, and a new entry is added otherwise. -/
def M.set : M → String → BVal → M
  | [], k, v => [(k, v)]
  | (k', v') :: rest, k, v =>
    if k' = k then (k, v) :: rest else (k', v') :: M.set rest k v

/-- The Go map read `b[k]` with the presence flag. -/
def M.get? : M → String → Option BVal
  | [], _ => none
  | (k', v') :: rest, k => if k' = k then some v' else M.get? rest k

/-- The keys of a document, in the order of the association list. -/
def M.keys (b : M) : List String := b.map Prod.fst

/-- A sequence of Go map assignments `b[k] = v`, applied to `b` in order. -/
def M.setAll (b : M) (kvs : List (String × BVal)) : M :=
  kvs.foldl (fun acc kv => acc.set kv.1 kv.2) b

/-- Modelled from the spec: the error values of the rest-layer `resource` package,
which is not part of this repository. `translateQuery` returns
`resource.ErrNotImplemented`. -/
inductive Error where
  | ErrNotFound
  | ErrUnauthorized
  | ErrConflict
  | ErrNotImplemented
  | ErrNoStorage
  deriving DecidableEq, Repr

/-- Modelled from the spec: `resource.Lookup` of the rest-layer `resource` package,
which is not part of this repository; the source only calls its accessors `Filter()`
and `Sort()`. -/
structure Lookup where
  filter : Query
  sort : List String

/-! ## Go string and slice primitives -/

/-- The Go index expression `s[i]` on a string, `none` when it panics. The source
only reads index `0` and compares the byte with the ASCII character `-`; the first
byte of a string is `-` exactly when its first character is. -/
def strIndex (s : String) (i : Nat) : Option Char := s.data[i]?

/-- The Go slice expression `s[i:]` on a string, `none` when it panics (`i > len(s)`).
The source only takes `s[1:]` of a string whose first byte is the one-byte character
`-`, where dropping a byte and dropping a character agree. -/
def strSliceFrom (s : String) (i : Nat) : Option String :=
  if i ≤ s.length then some ⟨s.data.drop i⟩ else none

/-- The Go assignment `s[i] = x` on a slice, `none` when it panics (`i >= len(s)`). -/
def sliceSet {α : Type} (s : List α) (i : Nat) (x : α) : Option (List α) :=
  if i < s.length then some (s.set i x) else none

/-! ## The functions of `lookup.go` -/

/-- The package variable `prefix`: the string added before all query and sort fields. -/
def prefix_ : String := "_payload."

/-- Source `getField`: translate a schema field into a MongoDB field. -/
def getField (f : String) : String :=
  if f = "id" then "_id" else prefix_ ++ f

/-- The value the body of the loop of `getSort` assigns to `s[i]` for the sort key
`sort`, `none` when evaluating it panics. -/
def getSort.entry (sort : String) : Option String :=
  if 0 < sort.length then
    match strIndex sort 0 with
    | none => none
    | some c =>
      if c = '-' then
        match strSliceFrom sort 1 with
        | none => none
        | some r => some ("-" ++ getField r)
      else some (getField sort)
  else some (getField sort)

/-- The loop `for i, sort := range l.Sort()` of `getSort`, from index `i` on, with
the current contents of the slice `s`. -/
def getSort.loop : List String → Nat → List String → Option (List String)
  | [], _, s => some s
  | sort :: rest, i, s =>
    match getSort.entry sort with
    | none => none
    | some x =>
      match sliceSet s i x with
      | none => none
      | some s' => getSort.loop rest (i + 1) s'

/-- Source `getSort`: transform a lookup into a Mongo sort list, falling back to
`_id` when the sort list is empty. -/
def getSort (l : Lookup) : Option (List String) :=
  let ln := l.sort.length
  if ln = 0 then some ["_id"]
  else getSort.loop l.sort 0 (List.replicate ln "")

/-- The loop `for i, _v := range v` of `valuesToInterface`, from index `i` on. The
loop writes the indices `0 .. len(v) - 1` of a slice of length `len(v)`, so every
write `I[i] = _v` is in bounds and is the list update `List.set`. -/
def valuesToInterface.loop : List Value → Nat → List Value → List Value
  | [], _, I => I
  | _v :: rest, i, I => valuesToInterface.loop rest (i + 1) (I.set i _v)

/-- Source `valuesToInterface`: `make([]interface{}, len(v))` gives `len(v)` nil
interface values, then every index is assigned. -/
def valuesToInterface (v : List Value) : List Value :=
  valuesToInterface.loop v 0 (List.replicate v.length Value.null)

mutual
/-- Source `translateQuery`: start from the empty document and run the loop. -/
def translateQuery (q : Query) : Except Error M :=
  translateQuery.loop q []
termination_by (sizeOf q, 1)
decreasing_by
  all_goals omega

/-- The loop `for _, exp := range q` of `translateQuery` with the current document
`b`; the `match` on the head is the type switch. -/
def translateQuery.loop (q : Query) (b : M) : Except Error M :=
  match q with
  | [] => .ok b
  | exp :: rest =>
    match exp with
    | .And t =>
      match translateQuery.subs t [] with
      | .error err => .error err
      | .ok s => translateQuery.loop rest (b.set "$and" (.ms s))
    | .Or t =>
      match translateQuery.subs t [] with
      | .error err => .error err
      | .ok s => translateQuery.loop rest (b.set "$or" (.ms s))
    | .In Field Values =>
      translateQuery.loop rest
        (b.set (getField Field) (.m [("$in", .is (valuesToInterface Values))]))
    | .NotIn Field Values =>
      translateQuery.loop rest
        (b.set (getField Field) (.m [("$nin", .is (valuesToInterface Values))]))
    | .Equal Field Value =>
      translateQuery.loop rest (b.set (getField Field) (.value Value))
    | .NotEqual Field Value =>
      translateQuery.loop rest (b.set (getField Field) (.m [("$ne", .value Value)]))
    | .GreaterThan Field Value =>
      translateQuery.loop rest (b.set (getField Field) (.m [("$gt", .value Value)]))
    | .GreaterOrEqual Field Value =>
      translateQuery.loop rest (b.set (getField Field) (.m [("$gte", .value Value)]))
    | .LowerThan Field Value =>
      translateQuery.loop rest (b.set (getField Field) (.m [("$lt", .value Value)]))
    | .LowerOrEqual Field Value =>
      translateQuery.loop rest (b.set (getField Field) (.m [("$lte", .value Value)]))
    | .Other _ => .error .ErrNotImplemented
termination_by (sizeOf q, 0)
decreasing_by
  all_goals simp_wf
  all_goals apply Prod.Lex.left
  all_goals omega

/-- The inner loop `for _, subExp := range t` of the `And` and `Or` cases, with the
current slice `s`; each child is translated as the one-element query
`schema.Query{subExp}` and appended. -/
def translateQuery.subs (t : List Expression) (s : List M) : Except Error (List M) :=
  match t with
  | [] => .ok s
  | subExp :: rest =>
    match translateQuery [subExp] with
    | .error err => .error err
    | .ok sb => translateQuery.subs rest (s ++ [sb])
termination_by (sizeOf t, 2)
decreasing_by
  · simp_wf
    cases rest with
    | nil => exact Prod.Lex.right _ (by decide)
    | cons e r =>
      apply Prod.Lex.left
      cases e <;> simp <;> omega
  · simp_wf
    omega
end

/-- Source `getQuery`: transform a lookup into a Mongo query. -/
def getQuery (l : Lookup) : Except Error M :=
  translateQuery l.filter

/-! ## Fuel-indexed translation, for the recursion depth -/

/-- The inner loop of the `And` and `Or` cases of `translateQuery`, with the recursive
call `translateQuery(schema.Query{subExp})` replaced by `call`; `none` when `call`
gives no result. -/
def translateQueryFuel.subs (call : Query → Option (Except Error M)) :
    List Expression → List M → Option (Except Error (List M))
  | [], s => some (.ok s)
  | subExp :: rest, s =>
    match call [subExp] with
    | none => none
    | some (.error err) => some (.error err)
    | some (.ok sb) => translateQueryFuel.subs call rest (s ++ [sb])

/-- The loop `for _, exp := range q` of `translateQuery`, with the recursive call
replaced by `call`; `none` when `call` gives no result. -/
def translateQueryFuel.loop (call : Query → Option (Except Error M)) :
    Query → M → Option (Except Error M)
  | [], b => some (.ok b)
  | exp :: rest, b =>
    match exp with
    | .And t =>
      match translateQueryFuel.subs call t [] with
      | none => none
      | some (.error err) => some (.error err)
      | some (.ok s) => translateQueryFuel.loop call rest (b.set "$and" (.ms s))
    | .Or t =>
      match translateQueryFuel.subs call t [] with
      | none => none
      | some (.error err) => some (.error err)
      | some (.ok s) => translateQueryFuel.loop call rest (b.set "$or" (.ms s))
    | .In Field Values =>
      translateQueryFuel.loop call rest
        (b.set (getField Field) (.m [("$in", .is (valuesToInterface Values))]))
    | .NotIn Field Values =>
      translateQueryFuel.loop call rest
        (b.set (getField Field) (.m [("$nin", .is (valuesToInterface Values))]))
    | .Equal Field Value =>
      translateQueryFuel.loop call rest (b.set (getField Field) (.value Value))
    | .NotEqual Field Value =>
      translateQueryFuel.loop call rest (b.set (getField Field) (.m [("$ne", .value Value)]))
    | .GreaterThan Field Value =>
      translateQueryFuel.loop call rest (b.set (getField Field) (.m [("$gt", .value Value)]))
    | .GreaterOrEqual Field Value =>
      translateQueryFuel.loop call rest
        (b.set (getField Field) (.m [("$gte", .value Value)]))
    | .LowerThan Field Value =>
      translateQueryFuel.loop call rest (b.set (getField Field) (.m [("$lt", .value Value)]))
    | .LowerOrEqual Field Value =>
      translateQueryFuel.loop call rest
        (b.set (getField Field) (.m [("$lte", .value Value)]))
    | .Other _ => some (.error .ErrNotImplemented)

/-- Source `translateQuery` run with a bound on the recursion depth: `n` is the number
of nested recursive calls allowed below this call, and `none` means a recursive call
was needed beyond that bound. -/
def translateQueryFuel : Nat → Query → Option (Except Error M)
  | 0, q => translateQueryFuel.loop (fun _ => none) q []
  | n + 1, q => translateQueryFuel.loop (translateQueryFuel n) q []

mutual
/-- The `And`/`Or` nesting depth of an expression: `0` for a leaf, one more than the
deepest child for `And` and `Or`. -/
def Expression.depth : Expression → Nat
  | .And t => depthList t + 1
  | .Or t => depthList t + 1
  | _ => 0
/-- The largest `And`/`Or` nesting depth among the expressions of a list. -/
def depthList : List Expression → Nat
  | [] => 0
  | e :: rest => max e.depth (depthList rest)
end

/-! ## Predicates used to state the properties -/

mutual
/-- An expression outside the ten supported variants occurs in the tree of `e`:
`e` itself, or a child at any depth below `And` and `Or`. -/
def Expression.unsupportedOccurs : Expression → Bool
  | .And t => unsupportedOccursIn t
  | .Or t => unsupportedOccursIn t
  | .Other _ => true
  | _ => false
/-- An expression outside the ten supported variants occurs somewhere in the trees
of the expressions of the list. -/
def unsupportedOccursIn : List Expression → Bool
  | [] => false
  | e :: rest => e.unsupportedOccurs || unsupportedOccursIn rest
end

/-- The logical field a leaf (non-`And`, non-`Or`) supported expression targets. -/
def Expression.leafField : Expression → Option String
  | .In f _ => some f
  | .NotIn f _ => some f
  | .Equal f _ => some f
  | .NotEqual f _ => some f
  | .GreaterThan f _ => some f
  | .GreaterOrEqual f _ => some f
  | .LowerThan f _ => some f
  | .LowerOrEqual f _ => some f
  | _ => none

/-- The key is one `translateQuery` may write in a query document: `$and`, `$or`,
`_id`, or a string starting with `_payload.`. -/
def okKey (k : String) : Bool :=
  k == "$and" || k == "$or" || k == "_id" || decide (prefix_.data <+: k.data)

mutual
/-- Every query document nested in the value (the documents of a `$and` or `$or`
sequence, at any depth) has only keys satisfying `okKey`. Operator documents and
raw values are not query documents. -/
def BVal.keysOk : BVal → Bool
  | .ms s => docsKeysOk s
  | _ => true
/-- Every key of the document satisfies `okKey`, and so does every key of every
document nested under it in a `$and` or `$or` sequence, at any depth. -/
def docKeysOk : List (String × BVal) → Bool
  | [] => true
  | (k, v) :: rest => okKey k && v.keysOk && docKeysOk rest
/-- Every document of the sequence satisfies `docKeysOk`. -/
def docsKeysOk : List (List (String × BVal)) → Bool
  | [] => true
  | d :: rest => docKeysOk d && docsKeysOk rest
end

mutual
/-- Every document of a `$and` or `$or` sequence nested in the value, at any depth,
has exactly one key. -/
def BVal.seqDocsSingle : BVal → Bool
  | .ms s => docsSingle s
  | _ => true
/-- Every document of a `$and` or `$or` sequence nested in the document, at any
depth, has exactly one key. -/
def docSeqsSingle : List (String × BVal) → Bool
  | [] => true
  | (_, v) :: rest => v.seqDocsSingle && docSeqsSingle rest
/-- Every document of the sequence has exactly one key, and so has every document of
a sequence nested in it. -/
def docsSingle : List (List (String × BVal)) → Bool
  | [] => true
  | d :: rest => decide (d.length = 1) && docSeqsSingle d && docsSingle rest
end

/-- The string begins with the character `c`. -/
def beginsWith (s : String) (c : Char) : Bool :=
  decide (s.data.head? = some c)

/-! ## Evaluation lemmas -/

/-- Writing index `i` of a slice and keeping its first `i + 1` elements. -/
theorem take_succ_set {α : Type} (x : α) :
    ∀ (I : List α) (i : Nat), i < I.length → (I.set i x).take (i + 1) = I.take i ++ [x]
  | [], _, h => by simp at h
  | _ :: _, 0, _ => by simp
  | a :: I, i + 1, h => by
    have h' : i < I.length := by simpa using h
    simp [take_succ_set x I i h']

theorem valuesToInterface_loop_eq (v : List Value) :
    ∀ (i : Nat) (I : List Value), I.length = i + v.length →
      valuesToInterface.loop v i I = I.take i ++ v := by
  induction v with
  | nil =>
    intro i I h
    simp only [List.length_nil, Nat.add_zero] at h
    simp [valuesToInterface.loop, ← h]
  | cons x rest ih =>
    intro i I h
    simp only [List.length_cons] at h
    have hi : i < I.length := by omega
    rw [valuesToInterface.loop, ih (i + 1) (I.set i x) (by simp; omega)]
    rw [take_succ_set x I i hi]
    simp

theorem valuesToInterface_eq (v : List Value) : valuesToInterface v = v := by
  unfold valuesToInterface
  rw [valuesToInterface_loop_eq v 0 _ (by simp)]
  simp

/-- The loop of `translateQuery` on a query of one expression followed by `rest`:
the head is handled as a one-element query on the current document, then the loop
goes on with `rest`; an error of the head is returned at once. -/
theorem translateQuery_loop_cons (e : Expression) (rest : Query) (b : M) :
    translateQuery.loop (e :: rest) b =
      match translateQuery.loop [e] b with
      | .error err => .error err
      | .ok b' => translateQuery.loop rest b' := by
  cases e with
  | And t => cases h : translateQuery.subs t [] <;> simp [translateQuery.loop, h]
  | Or t => cases h : translateQuery.subs t [] <;> simp [translateQuery.loop, h]
  | _ => simp [translateQuery.loop]

/-- A one-element query holding `And` succeeds exactly when its inner loop does, and
the document then has the single key `$and`. -/
theorem translateQuery_loop_and (t : List Expression) (b : M) :
    translateQuery.loop [.And t] b =
      match translateQuery.subs t [] with
      | .error err => .error err
      | .ok s => .ok (b.set "$and" (.ms s)) := by
  cases h : translateQuery.subs t [] <;> simp [translateQuery.loop, h]

/-- The same for `Or`, under the key `$or`. -/
theorem translateQuery_loop_or (t : List Expression) (b : M) :
    translateQuery.loop [.Or t] b =
      match translateQuery.subs t [] with
      | .error err => .error err
      | .ok s => .ok (b.set "$or" (.ms s)) := by
  cases h : translateQuery.subs t [] <;> simp [translateQuery.loop, h]

/-- One round of the inner loop of the `And` and `Or` cases. -/
theorem translateQuery_subs_cons (c : Expression) (rest : List Expression) (s : List M) :
    translateQuery.subs (c :: rest) s =
      match translateQuery.loop [c] [] with
      | .error err => .error err
      | .ok sb => translateQuery.subs rest (s ++ [sb]) := by
  rw [translateQuery.subs, translateQuery]

/-- When every child translates, the inner loop appends the translations of the
children to the slice, in order. -/
theorem translateQuery_subs_ok {cs : List Expression} {ds : List M}
    (h : List.Forall₂ (fun c d => translateQuery [c] = .ok d) cs ds) :
    ∀ s : List M, translateQuery.subs cs s = .ok (s ++ ds) := by
  induction h with
  | nil =>
    intro s
    simp [translateQuery.subs]
  | cons hcd _ ih =>
    intro s
    rw [translateQuery] at hcd
    rw [translateQuery_subs_cons, hcd]
    simp [ih]

mutual
/-- Outcome of a one-element query: the not-implemented error when an unsupported
expression occurs in the tree, a document otherwise. -/
theorem translateQuery_outcome_one :
    ∀ (e : Expression) (b : M),
      (e.unsupportedOccurs = true →
        translateQuery.loop [e] b = .error .ErrNotImplemented) ∧
      (e.unsupportedOccurs = false → ∃ b', translateQuery.loop [e] b = .ok b')
  | .And t, b => by
    have ht := (translateQuery_outcome_list t).2 []
    rw [translateQuery_loop_and, Expression.unsupportedOccurs]
    constructor
    · intro h
      rw [ht.1 h]
    · intro h
      obtain ⟨s, hs⟩ := ht.2 h
      exact ⟨_, by rw [hs]⟩
  | .Or t, b => by
    have ht := (translateQuery_outcome_list t).2 []
    rw [translateQuery_loop_or, Expression.unsupportedOccurs]
    constructor
    · intro h
      rw [ht.1 h]
    · intro h
      obtain ⟨s, hs⟩ := ht.2 h
      exact ⟨_, by rw [hs]⟩
  | .In _ _, _ => by simp [translateQuery.loop, Expression.unsupportedOccurs]
  | .NotIn _ _, _ => by simp [translateQuery.loop, Expression.unsupportedOccurs]
  | .Equal _ _, _ => by simp [translateQuery.loop, Expression.unsupportedOccurs]
  | .NotEqual _ _, _ => by simp [translateQuery.loop, Expression.unsupportedOccurs]
  | .GreaterThan _ _, _ => by simp [translateQuery.loop, Expression.unsupportedOccurs]
  | .GreaterOrEqual _ _, _ => by simp [translateQuery.loop, Expression.unsupportedOccurs]
  | .LowerThan _ _, _ => by simp [translateQuery.loop, Expression.unsupportedOccurs]
  | .LowerOrEqual _ _, _ => by simp [translateQuery.loop, Expression.unsupportedOccurs]
  | .Other _, _ => by simp [translateQuery.loop, Expression.unsupportedOccurs]
/-- Outcome of the outer loop on a query and of the inner loop on a list of children:
the not-implemented error when an unsupported expression occurs in one of the trees,
a result otherwise. -/
theorem translateQuery_outcome_list :
    ∀ (t : List Expression),
      (∀ b : M,
        (unsupportedOccursIn t = true →
          translateQuery.loop t b = .error .ErrNotImplemented) ∧
        (unsupportedOccursIn t = false → ∃ b', translateQuery.loop t b = .ok b')) ∧
      (∀ s : List M,
        (unsupportedOccursIn t = true →
          translateQuery.subs t s = .error .ErrNotImplemented) ∧
        (unsupportedOccursIn t = false → ∃ s', translateQuery.subs t s = .ok s'))
  | [] => by simp [translateQuery.loop, translateQuery.subs, unsupportedOccursIn]
  | e :: rest => by
    have he := translateQuery_outcome_one e
    have hr := translateQuery_outcome_list rest
    constructor
    · intro b
      rw [translateQuery_loop_cons, unsupportedOccursIn]
      cases hu : e.unsupportedOccurs with
      | true => simp [(he b).1 hu]
      | false =>
        obtain ⟨b', hb'⟩ := (he b).2 hu
        simpa [hb'] using hr.1 b'
    · intro s
      rw [translateQuery_subs_cons, unsupportedOccursIn]
      cases hu : e.unsupportedOccurs with
      | true => simp [(he []).1 hu]
      | false =>
        obtain ⟨sb, hsb⟩ := (he []).2 hu
        simpa [hsb] using hr.2 (s ++ [sb])
end

/-! ## Failure and success of the translation -/

/-- C1: for every logical query in which an expression outside the ten supported
variants occurs anywhere in the tree (at the top level or nested at any depth inside
`And` and `Or`, whatever precedes it), `translateQuery` fails with the not-implemented
error and returns no document. -/
theorem translateQuery_unsupported (q : Query) (h : unsupportedOccursIn q = true) :
    translateQuery q = .error .ErrNotImplemented ∧ ¬ ∃ b, translateQuery q = .ok b := by
  have hq := ((translateQuery_outcome_list q).1 []).1 h
  rw [translateQuery, hq]
  simp

theorem translateQuery_unsupported_witness :
    unsupportedOccursIn
        [.Equal "status" (.str "open"),
          .And [.GreaterThan "age" (.int 18), .Or [.In "tag" [], .Other "Regex"]]] = true ∧
      (translateQuery
          [.Equal "status" (.str "open"),
            .And [.GreaterThan "age" (.int 18), .Or [.In "tag" [], .Other "Regex"]]] =
          .error .ErrNotImplemented ∧
        ¬ ∃ b, translateQuery
          [.Equal "status" (.str "open"),
            .And [.GreaterThan "age" (.int 18), .Or [.In "tag" [], .Other "Regex"]]] =
          .ok b) :=
  ⟨by decide, translateQuery_unsupported _ (by decide)⟩

/-- C2: for every logical query whose expressions, at every nesting depth, all belong
to the ten supported variants, `translateQuery` succeeds: it returns a document and
no error. -/
theorem translateQuery_supported (q : Query) (h : unsupportedOccursIn q = false) :
    ∃ b, translateQuery q = .ok b := by
  obtain ⟨b, hb⟩ := ((translateQuery_outcome_list q).1 []).2 h
  exact ⟨b, by rw [translateQuery, hb]⟩

theorem translateQuery_supported_witness :
    unsupportedOccursIn
        [.Equal "status" (.str "open"),
          .And [.GreaterThan "age" (.int 18), .Or [.In "tag" [], .NotEqual "id" .null]]] =
        false ∧
      ∃ b, translateQuery
        [.Equal "status" (.str "open"),
          .And [.GreaterThan "age" (.int 18), .Or [.In "tag" [], .NotEqual "id" .null]]] =
        .ok b :=
  ⟨by decide, translateQuery_supported _ (by decide)⟩

/-! ## Combinators -/

/-- C3: for every sequence of child expressions `cs` that each translate
successfully, `translateQuery` on the one-element query `[And(cs)]` returns the
document with the single key `$and` whose value is the sequence `ds`, of the same
length and order as `cs`, of the documents `translateQuery [c]` of the children `c`;
on `[Or(cs)]` it returns the same sequence under the single key `$or`. -/
theorem translateQuery_and_or (cs : List Expression)
    (h : ∀ c ∈ cs, ∃ d, translateQuery [c] = .ok d) :
    ∃ ds : List M,
      List.Forall₂ (fun c d => translateQuery [c] = .ok d) cs ds ∧
      translateQuery [.And cs] = .ok [("$and", .ms ds)] ∧
      translateQuery [.Or cs] = .ok [("$or", .ms ds)] := by
  have hds : ∃ ds : List M,
      List.Forall₂ (fun c d => translateQuery [c] = .ok d) cs ds := by
    induction cs with
    | nil => exact ⟨[], List.Forall₂.nil⟩
    | cons c rest ih =>
      obtain ⟨d, hd⟩ := h c (List.mem_cons_self c rest)
      obtain ⟨ds, hds⟩ := ih (fun c' hc' => h c' (List.mem_cons_of_mem c hc'))
      exact ⟨d :: ds, List.Forall₂.cons hd hds⟩
  obtain ⟨ds, hds⟩ := hds
  refine ⟨ds, hds, ?_, ?_⟩
  · rw [translateQuery, translateQuery_loop_and, translateQuery_subs_ok hds]
    simp [M.set]
  · rw [translateQuery, translateQuery_loop_or, translateQuery_subs_ok hds]
    simp [M.set]

theorem translateQuery_and_or_witness :
    (∀ c ∈ [Expression.Equal "status" (.str "open"), .GreaterThan "age" (.int 18)],
      ∃ d, translateQuery [c] = .ok d) ∧
    translateQuery [.And [.Equal "status" (.str "open"), .GreaterThan "age" (.int 18)]] =
      .ok [("$and", .ms [[("_payload.status", .value (.str "open"))],
        [("_payload.age", .m [("$gt", .value (.int 18))])]])] ∧
    translateQuery [.Or [.Equal "status" (.str "open"), .GreaterThan "age" (.int 18)]] =
      .ok [("$or", .ms [[("_payload.status", .value (.str "open"))],
        [("_payload.age", .m [("$gt", .value (.int 18))])]])] := by
  have h : ∀ c ∈ [Expression.Equal "status" (.str "open"), .GreaterThan "age" (.int 18)],
      ∃ d, translateQuery [c] = .ok d := by
    simp [translateQuery, translateQuery.loop]
  obtain ⟨ds, hds, hand, hor⟩ := translateQuery_and_or _ h
  have hval : ds = [[("_payload.status", .value (.str "open"))],
      [("_payload.age", .m [("$gt", .value (.int 18))])]] := by
    simpa [List.forall₂_cons_left_iff, translateQuery, translateQuery.loop, M.set, getField,
      prefix_] using hds
  rw [hval] at hand hor
  exact ⟨h, hand, hor⟩

/-! ## Overwriting -/

/-- C10: for every field name `f` and every two leaf (non-`And`, non-`Or`) supported
expressions `e1` and `e2` that both target `f`, `translateQuery` on `[e1, e2]` succeeds
and returns exactly the document `translateQuery [e2]`, which has the one key
`getField f`: only the constraint of the later expression remains. -/
theorem translateQuery_same_field (f : String) (e1 e2 : Expression)
    (h1 : e1.leafField = some f) (h2 : e2.leafField = some f) :
    translateQuery [e1, e2] = translateQuery [e2] ∧
      ∃ v, translateQuery [e2] = .ok [(getField f, v)] := by
  cases e1 <;> cases e2 <;>
    simp_all [Expression.leafField, translateQuery, translateQuery.loop, M.set]

theorem translateQuery_same_field_witness :
    (Expression.GreaterThan "age" (.int 18)).leafField = some "age" ∧
    (Expression.In "age" [.int 30, .int 40]).leafField = some "age" ∧
    translateQuery [.GreaterThan "age" (.int 18), .In "age" [.int 30, .int 40]] =
      translateQuery [.In "age" [.int 30, .int 40]] ∧
    ∃ v, translateQuery [.In "age" [.int 30, .int 40]] = .ok [(getField "age", v)] :=
  ⟨rfl, rfl, translateQuery_same_field "age" _ _ rfl rfl⟩

/-! ## Field mapping -/

/-- C7: `getField` maps the logical field name `id` to `_id`, and every other string
`f` (the empty string and names that contain or start with `id` included) to
`_payload.` followed by `f`. -/
theorem getField_spec (f : String) :
    (f = "id" → getField f = "_id") ∧ (f ≠ "id" → getField f = "_payload." ++ f) := by
  constructor
  · intro h
    simp [getField, h]
  · intro h
    simp [getField, h, prefix_]

theorem getField_spec_witness :
    getField "id" = "_id" ∧ getField "" = "_payload." ++ "" ∧
      getField "idx" = "_payload." ++ "idx" ∧ getField "valid" = "_payload." ++ "valid" :=
  ⟨(getField_spec "id").1 rfl, (getField_spec "").2 (by decide),
    (getField_spec "idx").2 (by decide), (getField_spec "valid").2 (by decide)⟩

/-! ## Leaf expressions -/

/-- C4: on the one-element query `[Equal(f, v)]`, `translateQuery` returns exactly the
one-key document mapping `getField f` to the raw value `v`, with no operator wrapper;
`[Equal(status, open)]` gives the document mapping `_payload.status` to `open`. -/
theorem translateQuery_equal :
    (∀ (f : String) (v : Value),
      translateQuery [.Equal f v] = .ok [(getField f, .value v)]) ∧
    translateQuery [.Equal "status" (.str "open")] =
      .ok [("_payload.status", .value (.str "open"))] := by
  constructor
  · intro f v
    simp [translateQuery, translateQuery.loop, M.set]
  · simp [translateQuery, translateQuery.loop, M.set, getField, prefix_]

/-- C5: on a one-element query holding `NotEqual`, `GreaterThan`, `GreaterOrEqual`,
`LowerThan` or `LowerOrEqual` of `f` and `v`, `translateQuery` returns the one-key
document mapping `getField f` to the one-key operator document of `$ne`, `$gt`,
`$gte`, `$lt`, `$lte` respectively, carrying `v` unchanged. -/
theorem translateQuery_comparison (f : String) (v : Value) :
    translateQuery [.NotEqual f v] = .ok [(getField f, .m [("$ne", .value v)])] ∧
    translateQuery [.GreaterThan f v] = .ok [(getField f, .m [("$gt", .value v)])] ∧
    translateQuery [.GreaterOrEqual f v] = .ok [(getField f, .m [("$gte", .value v)])] ∧
    translateQuery [.LowerThan f v] = .ok [(getField f, .m [("$lt", .value v)])] ∧
    translateQuery [.LowerOrEqual f v] = .ok [(getField f, .m [("$lte", .value v)])] := by
  simp [translateQuery, translateQuery.loop, M.set]

/-- C6: on `[In(f, vs)]` `translateQuery` returns the one-key document mapping
`getField f` to the operator document of `$in` holding `valuesToInterface vs`, and on
`[NotIn(f, vs)]` the same under `$nin`; `valuesToInterface vs` has the length of `vs`
and the same element at every index. `[In(tag, [a, b])]` gives the document mapping
`_payload.tag` to `$in` of `[a, b]`. -/
theorem translateQuery_in_notIn :
    (∀ (f : String) (vs : List Value),
      translateQuery [.In f vs] =
        .ok [(getField f, .m [("$in", .is (valuesToInterface vs))])] ∧
      translateQuery [.NotIn f vs] =
        .ok [(getField f, .m [("$nin", .is (valuesToInterface vs))])] ∧
      (valuesToInterface vs).length = vs.length ∧
      ∀ i : Nat, (valuesToInterface vs)[i]? = vs[i]?) ∧
    translateQuery [.In "tag" [.str "a", .str "b"]] =
      .ok [("_payload.tag", .m [("$in", .is [.str "a", .str "b"])])] := by
  constructor
  · intro f vs
    refine ⟨?_, ?_, ?_, ?_⟩
    · simp [translateQuery, translateQuery.loop, M.set]
    · simp [translateQuery, translateQuery.loop, M.set]
    · rw [valuesToInterface_eq]
    · intro i
      rw [valuesToInterface_eq]
  · simp [translateQuery, translateQuery.loop, M.set, getField, prefix_,
      valuesToInterface_eq]

/-! ## Sort translation -/

/-- A sort key that is `-` followed by `rest` gets `-` followed by the mapped `rest`. -/
theorem getSort_entry_marker (rest : String) :
    getSort.entry ("-" ++ rest) = some ("-" ++ getField rest) := by
  have hd : ("-" ++ rest).data = '-' :: rest.data := by
    rw [String.data_append]
    rfl
  have hlen : 0 < ("-" ++ rest).length := by
    rw [String.length, hd]
    simp
  have hidx : strIndex ("-" ++ rest) 0 = some '-' := by
    rw [strIndex, hd]
    simp
  have hsl : strSliceFrom ("-" ++ rest) 1 = some rest := by
    have h1 : 1 ≤ ("-" ++ rest).length := hlen
    rw [strSliceFrom, if_pos h1, hd]
    rfl
  rw [getSort.entry, if_pos hlen, hidx]
  simp only [if_true]
  rw [hsl]

/-- A sort key that does not begin with `-` is mapped directly. -/
theorem getSort_entry_plain (k : String) (h : ¬ ∃ rest, k = "-" ++ rest) :
    getSort.entry k = some (getField k) := by
  unfold getSort.entry strIndex
  by_cases hl : 0 < k.length
  · rw [if_pos hl]
    cases hk : k.data with
    | nil =>
      have hlen : k.length = k.data.length := rfl
      rw [hlen, hk] at hl
      simp at hl
    | cons c tl =>
      have hc : c ≠ '-' := by
        intro hc
        apply h
        refine ⟨⟨tl⟩, String.ext ?_⟩
        rw [String.data_append, hk, hc]
        rfl
      simp [hc]
  · rw [if_neg hl]

/-- Evaluating the loop body never panics. -/
theorem getSort_entry_isSome (k : String) : ∃ x, getSort.entry k = some x := by
  by_cases h : ∃ rest, k = "-" ++ rest
  · obtain ⟨rest, rfl⟩ := h
    exact ⟨_, getSort_entry_marker rest⟩
  · exact ⟨_, getSort_entry_plain k h⟩

/-- The loop of `getSort` from index `i` on, on a slice with room for the remaining
keys: the first `i` entries are kept and the entries of the keys follow in order. -/
theorem getSort_loop_eq {ks xs : List String}
    (h : List.Forall₂ (fun k x => getSort.entry k = some x) ks xs) :
    ∀ (i : Nat) (s : List String), s.length = i + ks.length →
      getSort.loop ks i s = some (s.take i ++ xs) := by
  induction h with
  | nil =>
    intro i s hs
    simp only [List.length_nil, Nat.add_zero] at hs
    simp [getSort.loop, ← hs]
  | cons hkx _ ih =>
    intro i s hs
    simp only [List.length_cons] at hs
    have hi : i < s.length := by omega
    rw [getSort.loop, hkx]
    simp only [sliceSet, if_pos hi]
    rw [ih (i + 1) _ (by simp; omega), take_succ_set _ s i hi]
    simp

/-- On a non-empty sort list `getSort` returns the entries of the keys, in order. -/
theorem getSort_eq_entries (l : Lookup) (h : l.sort ≠ []) :
    ∃ out, getSort l = some out ∧
      List.Forall₂ (fun k x => getSort.entry k = some x) l.sort out := by
  have hxs : ∀ ks : List String,
      ∃ xs, List.Forall₂ (fun k x => getSort.entry k = some x) ks xs := by
    intro ks
    induction ks with
    | nil => exact ⟨[], List.Forall₂.nil⟩
    | cons k rest ih =>
      obtain ⟨x, hx⟩ := getSort_entry_isSome k
      obtain ⟨xs, hxs⟩ := ih
      exact ⟨x :: xs, List.Forall₂.cons hx hxs⟩
  obtain ⟨xs, hxs⟩ := hxs l.sort
  refine ⟨xs, ?_, hxs⟩
  have hlen : l.sort.length ≠ 0 := by
    intro h0
    exact h (List.length_eq_zero.mp h0)
  simp only [getSort, if_neg hlen]
  rw [getSort_loop_eq hxs 0 _ (by simp)]
  simp

/-- C8: for every non-empty sequence of sort keys, `getSort` returns a sequence of the
same length in which, at every index `i`, the entry is `-` followed by
`getField rest` when the `i`-th key is `-` followed by `rest`, and `getField` of the
`i`-th key otherwise. -/
theorem getSort_nonempty (l : Lookup) (h : l.sort ≠ []) :
    ∃ out, getSort l = some out ∧ out.length = l.sort.length ∧
      ∀ (i : Nat) (k : String), l.sort[i]? = some k →
        (∀ rest, k = "-" ++ rest → out[i]? = some ("-" ++ getField rest)) ∧
        ((¬ ∃ rest, k = "-" ++ rest) → out[i]? = some (getField k)) := by
  obtain ⟨out, hout, hf⟩ := getSort_eq_entries l h
  refine ⟨out, hout, hf.length_eq.symm, ?_⟩
  intro i k hk
  obtain ⟨hi, hki⟩ := List.getElem?_eq_some.mp hk
  have ho : i < out.length := by
    rw [← hf.length_eq]
    exact hi
  have hent : getSort.entry k = some (out.get ⟨i, ho⟩) := by
    have := hf.get hi ho
    rw [List.get_eq_getElem, hki] at this
    exact this
  have hget : out[i]? = some (out.get ⟨i, ho⟩) := by
    rw [List.getElem?_eq_getElem ho]
    rfl
  constructor
  · intro rest hrest
    rw [hget, ← hent, hrest, getSort_entry_marker]
  · intro hplain
    rw [hget, ← hent, getSort_entry_plain k hplain]

theorem getSort_nonempty_witness :
    (Lookup.mk [] ["name", "-age", "-id"]).sort ≠ [] ∧
    (∃ out, getSort (Lookup.mk [] ["name", "-age", "-id"]) = some out ∧
      out.length = (Lookup.mk [] ["name", "-age", "-id"]).sort.length ∧
      ∀ (i : Nat) (k : String), (Lookup.mk [] ["name", "-age", "-id"]).sort[i]? = some k →
        (∀ rest, k = "-" ++ rest → out[i]? = some ("-" ++ getField rest)) ∧
        ((¬ ∃ rest, k = "-" ++ rest) → out[i]? = some (getField k))) ∧
    getSort (Lookup.mk [] ["-name"]) = some ["-_payload.name"] ∧
    getSort (Lookup.mk [] ["name", "-age"]) = some ["_payload.name", "-_payload.age"] ∧
    getSort (Lookup.mk [] ["-id"]) = some ["-_id"] :=
  ⟨by decide, getSort_nonempty (Lookup.mk [] ["name", "-age", "-id"]) (by decide),
    by decide, by decide, by decide⟩

/-- C9: when the sort-key sequence of the lookup is empty, `getSort` returns exactly
the one-element sequence `["_id"]`, which is `[getField "id"]`. -/
theorem getSort_empty (l : Lookup) (h : l.sort = []) :
    getSort l = some ["_id"] ∧ getSort l = some [getField "id"] := by
  simp [getSort, h, getField]

theorem getSort_empty_witness :
    (Lookup.mk [.Equal "status" (.str "open")] []).sort = [] ∧
      getSort (Lookup.mk [.Equal "status" (.str "open")] []) = some ["_id"] ∧
      getSort (Lookup.mk [.Equal "status" (.str "open")] []) = some [getField "id"] :=
  ⟨rfl, getSort_empty (Lookup.mk [.Equal "status" (.str "open")] []) rfl⟩

/-! ## Empty query -/

/-- C12: on the query with zero top-level expressions `translateQuery` succeeds and
returns the empty document, which has no keys. -/
theorem translateQuery_nil :
    ∃ d, translateQuery [] = .ok d ∧ d = [] ∧ d.keys = [] := by
  refine ⟨[], ?_, rfl, rfl⟩
  simp [translateQuery, translateQuery.loop]

/-! ## Totality and direction of the sort translation -/

/-- A string begins with `-` exactly when it is `-` followed by some rest. -/
theorem beginsWith_marker_iff (k : String) :
    beginsWith k '-' = true ↔ ∃ rest, k = "-" ++ rest := by
  unfold beginsWith
  rw [decide_eq_true_iff]
  constructor
  · intro h
    cases hk : k.data with
    | nil => simp [hk] at h
    | cons c tl =>
      rw [hk] at h
      simp only [List.head?_cons, Option.some.injEq] at h
      refine ⟨⟨tl⟩, String.ext ?_⟩
      rw [String.data_append, hk, h]
      rfl
  · rintro ⟨rest, rfl⟩
    rw [String.data_append]
    rfl

/-- Every result of `getField` begins with `_`. -/
theorem getField_beginsWith (f : String) : beginsWith (getField f) '_' = true := by
  unfold beginsWith getField
  rw [decide_eq_true_iff]
  split
  · rfl
  · rw [String.data_append]
    rfl

/-- The entry of a sort key begins with `-` exactly when the key does. -/
theorem getSort_entry_direction (k x : String) (h : getSort.entry k = some x) :
    beginsWith x '-' = true ↔ beginsWith k '-' = true := by
  by_cases hk : ∃ rest, k = "-" ++ rest
  · have hkb := (beginsWith_marker_iff k).mpr hk
    obtain ⟨rest, rfl⟩ := hk
    rw [getSort_entry_marker] at h
    have hx : x = "-" ++ getField rest := (Option.some.inj h).symm
    have hxb := (beginsWith_marker_iff x).mpr ⟨_, hx⟩
    simp [hkb, hxb]
  · rw [getSort_entry_plain k hk] at h
    have hx : x = getField k := (Option.some.inj h).symm
    have hkb : ¬ beginsWith k '-' = true := fun hb => hk ((beginsWith_marker_iff k).mp hb)
    have hxb : ¬ beginsWith x '-' = true := by
      intro hb
      have h1 := getField_beginsWith k
      rw [← hx] at h1
      unfold beginsWith at hb h1
      rw [decide_eq_true_iff] at hb h1
      rw [hb] at h1
      exact absurd h1 (by decide)
    simp [hkb, hxb]

/-- C13: `getSort` never fails. For every lookup a result is returned; the index
expression on the first character of a non-empty key and the slice expression that
drops the marker of a key beginning with `-` are in bounds; the key `""` gives
`_payload.` and the bare marker `-` gives `-_payload.`. -/
theorem getSort_total :
    (∀ l : Lookup, ∃ out, getSort l = some out) ∧
    (∀ k : String, ∃ x, getSort.entry k = some x) ∧
    (∀ k : String, 0 < k.length → ∃ c, strIndex k 0 = some c) ∧
    (∀ k : String, strIndex k 0 = some '-' → ∃ r, strSliceFrom k 1 = some r) ∧
    getSort (Lookup.mk [] [""]) = some ["_payload."] ∧
    getSort (Lookup.mk [] ["-"]) = some ["-_payload."] := by
  refine ⟨?_, getSort_entry_isSome, ?_, ?_, by decide, by decide⟩
  · intro l
    by_cases h : l.sort = []
    · exact ⟨["_id"], by simp [getSort, h]⟩
    · obtain ⟨out, hout, _⟩ := getSort_eq_entries l h
      exact ⟨out, hout⟩
  · intro k hk
    have hlen : k.length = k.data.length := rfl
    unfold strIndex
    cases hd : k.data with
    | nil =>
      rw [hlen, hd] at hk
      simp at hk
    | cons c tl => exact ⟨c, by simp⟩
  · intro k hk
    have hlen : k.length = k.data.length := rfl
    unfold strIndex at hk
    unfold strSliceFrom
    cases hd : k.data with
    | nil =>
      rw [hd] at hk
      simp at hk
    | cons c tl =>
      have h1 : 1 ≤ k.length := by
        rw [hlen, hd]
        simp
      exact ⟨_, by rw [if_pos h1]⟩

theorem getSort_total_witness :
    (∃ out, getSort (Lookup.mk [] ["", "-", "-id", "name"]) = some out) ∧
    (∃ c, strIndex "-" 0 = some c) ∧
    (∃ r, strSliceFrom "-" 1 = some r) :=
  ⟨getSort_total.1 _, getSort_total.2.2.1 "-" (by decide),
    getSort_total.2.2.2.1 "-" (by decide)⟩

/-- C19: `getSort` preserves the sort direction. For every non-empty sequence of sort
keys the output has the length of the input and, at every index, the output entry
begins with `-` if and only if the input key does; every `getField` result begins
with `_`. -/
theorem getSort_direction (l : Lookup) (h : l.sort ≠ []) :
    ∃ out, getSort l = some out ∧ out.length = l.sort.length ∧
      (∀ (i : Nat) (k x : String), l.sort[i]? = some k → out[i]? = some x →
        (beginsWith x '-' = true ↔ beginsWith k '-' = true)) ∧
      ∀ f : String, beginsWith (getField f) '_' = true := by
  obtain ⟨out, hout, hf⟩ := getSort_eq_entries l h
  refine ⟨out, hout, hf.length_eq.symm, ?_, getField_beginsWith⟩
  intro i k x hk hx
  obtain ⟨hi, hki⟩ := List.getElem?_eq_some.mp hk
  obtain ⟨ho, hxo⟩ := List.getElem?_eq_some.mp hx
  have hent := hf.get hi ho
  rw [List.get_eq_getElem, List.get_eq_getElem, hki, hxo] at hent
  exact getSort_entry_direction k x hent

theorem getSort_direction_witness :
    (Lookup.mk [] ["name", "-age", "-id", "id"]).sort ≠ [] ∧
    ∃ out, getSort (Lookup.mk [] ["name", "-age", "-id", "id"]) = some out ∧
      out.length = (Lookup.mk [] ["name", "-age", "-id", "id"]).sort.length ∧
      (∀ (i : Nat) (k x : String),
        (Lookup.mk [] ["name", "-age", "-id", "id"]).sort[i]? = some k → out[i]? = some x →
        (beginsWith x '-' = true ↔ beginsWith k '-' = true)) ∧
      ∀ f : String, beginsWith (getField f) '_' = true :=
  ⟨by decide, getSort_direction (Lookup.mk [] ["name", "-age", "-id", "id"]) (by decide)⟩

/-! ## Repeated top-level combinators -/

/-- When every child translates, the translations of the children form a sequence
of the same length and order. -/
theorem translateQuery_children_docs (cs : List Expression)
    (h : ∀ c ∈ cs, ∃ d, translateQuery [c] = .ok d) :
    ∃ ds : List M, List.Forall₂ (fun c d => translateQuery [c] = .ok d) cs ds := by
  induction cs with
  | nil => exact ⟨[], List.Forall₂.nil⟩
  | cons c rest ih =>
    obtain ⟨d, hd⟩ := h c (List.mem_cons_self c rest)
    obtain ⟨ds, hds⟩ := ih (fun c' hc' => h c' (List.mem_cons_of_mem c hc'))
    exact ⟨d :: ds, List.Forall₂.cons hd hds⟩

/-- C15: for every two sequences of child expressions `cs1` and `cs2` that translate
successfully, `translateQuery` on `[And(cs1), And(cs2)]` returns exactly
`translateQuery [And(cs2)]`, the one-key document holding under `$and` the
translations of the children of `cs2` only; likewise for two top-level `Or`
expressions under `$or`. Nothing of the first combinator remains. -/
theorem translateQuery_and_and (cs1 cs2 : List Expression)
    (h1 : ∀ c ∈ cs1, ∃ d, translateQuery [c] = .ok d)
    (h2 : ∀ c ∈ cs2, ∃ d, translateQuery [c] = .ok d) :
    translateQuery [.And cs1, .And cs2] = translateQuery [.And cs2] ∧
    translateQuery [.Or cs1, .Or cs2] = translateQuery [.Or cs2] ∧
    ∃ ds2 : List M,
      List.Forall₂ (fun c d => translateQuery [c] = .ok d) cs2 ds2 ∧
      translateQuery [.And cs1, .And cs2] = .ok [("$and", .ms ds2)] ∧
      translateQuery [.Or cs1, .Or cs2] = .ok [("$or", .ms ds2)] := by
  obtain ⟨ds1, hds1⟩ := translateQuery_children_docs cs1 h1
  obtain ⟨ds2, hds2⟩ := translateQuery_children_docs cs2 h2
  have hA : translateQuery [.And cs1, .And cs2] = .ok [("$and", .ms ds2)] := by
    rw [translateQuery, translateQuery_loop_cons, translateQuery_loop_and,
      translateQuery_subs_ok hds1]
    simp only [List.nil_append]
    rw [translateQuery_loop_and, translateQuery_subs_ok hds2]
    simp [M.set]
  have hO : translateQuery [.Or cs1, .Or cs2] = .ok [("$or", .ms ds2)] := by
    rw [translateQuery, translateQuery_loop_cons, translateQuery_loop_or,
      translateQuery_subs_ok hds1]
    simp only [List.nil_append]
    rw [translateQuery_loop_or, translateQuery_subs_ok hds2]
    simp [M.set]
  have hA2 : translateQuery [.And cs2] = .ok [("$and", .ms ds2)] := by
    rw [translateQuery, translateQuery_loop_and, translateQuery_subs_ok hds2]
    simp [M.set]
  have hO2 : translateQuery [.Or cs2] = .ok [("$or", .ms ds2)] := by
    rw [translateQuery, translateQuery_loop_or, translateQuery_subs_ok hds2]
    simp [M.set]
  exact ⟨by rw [hA, hA2], by rw [hO, hO2], ds2, hds2, hA, hO⟩

theorem translateQuery_and_and_witness :
    (∀ c ∈ [Expression.Equal "status" (.str "open")], ∃ d, translateQuery [c] = .ok d) ∧
    (∀ c ∈ [Expression.GreaterThan "age" (.int 18)], ∃ d, translateQuery [c] = .ok d) ∧
    translateQuery
        [.And [.Equal "status" (.str "open")], .And [.GreaterThan "age" (.int 18)]] =
      translateQuery [.And [.GreaterThan "age" (.int 18)]] ∧
    translateQuery
        [.Or [.Equal "status" (.str "open")], .Or [.GreaterThan "age" (.int 18)]] =
      translateQuery [.Or [.GreaterThan "age" (.int 18)]] ∧
    translateQuery [.And [.GreaterThan "age" (.int 18)]] =
      .ok [("$and", .ms [[("_payload.age", .m [("$gt", .value (.int 18))])]])] := by
  have h1 : ∀ c ∈ [Expression.Equal "status" (.str "open")],
      ∃ d, translateQuery [c] = .ok d := by
    simp [translateQuery, translateQuery.loop]
  have h2 : ∀ c ∈ [Expression.GreaterThan "age" (.int 18)],
      ∃ d, translateQuery [c] = .ok d := by
    simp [translateQuery, translateQuery.loop]
  have h := translateQuery_and_and _ _ h1 h2
  refine ⟨h1, h2, h.1, h.2.1, ?_⟩
  simp [translateQuery, translateQuery.loop, translateQuery.subs, M.set, getField, prefix_]

/-! ## Termination and recursion depth -/

/-- A child of a list is no deeper than the list. -/
theorem depth_le_depthList {c : Expression} :
    ∀ {t : List Expression}, c ∈ t → c.depth ≤ depthList t
  | [], h => by simp at h
  | e :: rest, h => by
    rw [depthList]
    rcases List.mem_cons.mp h with rfl | h'
    · exact Nat.le_max_left _ _
    · exact Nat.le_trans (depth_le_depthList h') (Nat.le_max_right _ _)

/-- The inner loop run with `call` agrees with the inner loop of `translateQuery`
when `call` agrees with `translateQuery` on every child. -/
theorem translateQueryFuel_subs_eq (call : Query → Option (Except Error M)) :
    ∀ (t : List Expression) (s : List M),
      (∀ c ∈ t, call [c] = some (translateQuery [c])) →
      translateQueryFuel.subs call t s = some (translateQuery.subs t s)
  | [], s, _ => by simp [translateQueryFuel.subs, translateQuery.subs]
  | c :: rest, s, h => by
    have hc := h c (List.mem_cons_self c rest)
    have hr := fun sb => translateQueryFuel_subs_eq call rest (s ++ [sb])
      (fun c' hc' => h c' (List.mem_cons_of_mem c hc'))
    rw [translateQueryFuel.subs, translateQuery.subs, hc]
    cases hq : translateQuery [c] with
    | error err => rfl
    | ok sb => exact hr sb

/-- The loop run with `call` agrees with the loop of `translateQuery` on a query of
nesting depth at most `m` when `call` agrees with `translateQuery` on every
expression of depth below `m`. -/
theorem translateQueryFuel_loop_eq (call : Query → Option (Except Error M)) (m : Nat)
    (hcall : ∀ c : Expression, c.depth + 1 ≤ m → call [c] = some (translateQuery [c])) :
    ∀ (q : Query) (b : M), depthList q ≤ m →
      translateQueryFuel.loop call q b = some (translateQuery.loop q b)
  | [], b, _ => by simp [translateQueryFuel.loop, translateQuery.loop]
  | e :: rest, b, h => by
    rw [depthList] at h
    have he : e.depth ≤ m := Nat.le_trans (Nat.le_max_left _ _) h
    have hr := fun b' => translateQueryFuel_loop_eq call m hcall rest b'
      (Nat.le_trans (Nat.le_max_right _ _) h)
    cases e with
    | And t =>
      rw [Expression.depth] at he
      have ht := translateQueryFuel_subs_eq call t []
        (fun c hc => hcall c (by have := depth_le_depthList hc; omega))
      rw [translateQueryFuel.loop, translateQuery.loop, ht]
      cases hs : translateQuery.subs t [] with
      | error err => rfl
      | ok s => exact hr _
    | Or t =>
      rw [Expression.depth] at he
      have ht := translateQueryFuel_subs_eq call t []
        (fun c hc => hcall c (by have := depth_le_depthList hc; omega))
      rw [translateQueryFuel.loop, translateQuery.loop, ht]
      cases hs : translateQuery.subs t [] with
      | error err => rfl
      | ok s => exact hr _
    | Other _ => simp [translateQueryFuel.loop, translateQuery.loop]
    | _ =>
      rw [translateQueryFuel.loop, translateQuery.loop]
      exact hr _

/-- C14: `translateQuery` terminates on every finite expression tree, with a recursion
depth bounded by the `And`/`Or` nesting depth of the tree: run with at most `n` nested
recursive calls, where `n` is at least the nesting depth of the query, the translation
returns a result, and it is the result of `translateQuery`. -/
theorem translateQuery_terminates (n : Nat) (q : Query) (h : depthList q ≤ n) :
    translateQueryFuel n q = some (translateQuery q) ∧
    ∃ r, translateQueryFuel (depthList q) q = some r := by
  have key : ∀ (n : Nat) (q : Query), depthList q ≤ n →
      translateQueryFuel n q = some (translateQuery q) := by
    intro n
    induction n with
    | zero =>
      intro q hq
      rw [translateQueryFuel, translateQuery]
      exact translateQueryFuel_loop_eq _ 0 (fun c hc => by omega) q [] hq
    | succ n ih =>
      intro q hq
      rw [translateQueryFuel, translateQuery]
      refine translateQueryFuel_loop_eq _ (n + 1) (fun c hc => ?_) q [] hq
      apply ih
      rw [depthList, depthList]
      simp only [Nat.max_zero]
      omega
  exact ⟨key n q h, _, key _ q (Nat.le_refl _)⟩

theorem translateQuery_terminates_witness :
    translateQueryFuel 1 [.Equal "status" (.str "open"),
        .And [.GreaterThan "age" (.int 18), .Or [.In "tag" [], .Other "Regex"]]] = none ∧
    depthList [.Equal "status" (.str "open"),
        .And [.GreaterThan "age" (.int 18), .Or [.In "tag" [], .Other "Regex"]]] ≤ 2 ∧
    translateQueryFuel 2 [.Equal "status" (.str "open"),
        .And [.GreaterThan "age" (.int 18), .Or [.In "tag" [], .Other "Regex"]]] =
      some (translateQuery [.Equal "status" (.str "open"),
        .And [.GreaterThan "age" (.int 18), .Or [.In "tag" [], .Other "Regex"]]]) ∧
    ∃ r, translateQueryFuel
        (depthList [.Equal "status" (.str "open"),
          .And [.GreaterThan "age" (.int 18), .Or [.In "tag" [], .Other "Regex"]]])
        [.Equal "status" (.str "open"),
          .And [.GreaterThan "age" (.int 18), .Or [.In "tag" [], .Other "Regex"]]] = some r :=
  ⟨rfl, by decide, translateQuery_terminates 2 _ (by decide)⟩

/-! ## Documents as maps -/

theorem M.get?_set (b : M) (k : String) (v : BVal) (k' : String) :
    (b.set k v).get? k' = if k = k' then some v else b.get? k' := by
  induction b with
  | nil => simp [M.set, M.get?]
  | cons kv rest ih =>
    obtain ⟨k0, v0⟩ := kv
    by_cases h0 : k0 = k
    · subst h0
      by_cases h1 : k0 = k' <;> simp [M.set, M.get?, h1]
    · by_cases h1 : k0 = k'
      · subst h1
        have h2 : ¬ k = k0 := fun h => h0 h.symm
        simp [M.set, M.get?, h0, h2]
      · simp [M.set, M.get?, h0, h1, ih]

theorem M.mem_keys_iff (b : M) (k : String) :
    k ∈ b.keys ↔ ∃ v, b.get? k = some v := by
  induction b with
  | nil => simp [M.keys, M.get?]
  | cons kv rest ih =>
    obtain ⟨k0, v0⟩ := kv
    have ih' : k ∈ List.map Prod.fst rest ↔ ∃ v, M.get? rest k = some v := ih
    by_cases h0 : k0 = k
    · subst h0
      simp [M.keys, M.get?]
    · have h1 : ¬ k = k0 := fun h => h0 h.symm
      simp only [M.keys, List.map_cons, List.mem_cons, h1, false_or, M.get?, if_neg h0]
      exact ih'

theorem M.set_of_not_mem (b : M) (k : String) (v : BVal) (h : k ∉ b.keys) :
    b.set k v = b ++ [(k, v)] := by
  induction b with
  | nil => simp [M.set]
  | cons kv rest ih =>
    obtain ⟨k0, v0⟩ := kv
    have h0 : ¬ k0 = k := by
      intro h0
      apply h
      simp [M.keys, h0]
    have hr : k ∉ M.keys rest := by
      intro hr
      apply h
      simp only [M.keys, List.map_cons, List.mem_cons]
      exact Or.inr hr
    simp [M.set, h0, ih hr]

theorem M.keys_set_of_mem (b : M) (k : String) (v : BVal) (h : k ∈ b.keys) :
    (b.set k v).keys = b.keys := by
  induction b with
  | nil => simp [M.keys] at h
  | cons kv rest ih =>
    obtain ⟨k0, v0⟩ := kv
    by_cases h0 : k0 = k
    · simp [M.set, M.keys, h0]
    · have hr : k ∈ M.keys rest := by
        simp only [M.keys, List.map_cons, List.mem_cons] at h
        rcases h with h | h
        · exact absurd h.symm h0
        · exact h
      have := ih hr
      simp only [M.keys] at this
      simp [M.set, M.keys, h0, this]

theorem M.keys_set (b : M) (k : String) (v : BVal) :
    (b.set k v).keys = if k ∈ b.keys then b.keys else b.keys ++ [k] := by
  by_cases h : k ∈ b.keys
  · rw [if_pos h, M.keys_set_of_mem b k v h]
  · rw [if_neg h, M.set_of_not_mem b k v h]
    simp [M.keys]

theorem M.nodup_keys_set (b : M) (k : String) (v : BVal) (h : b.keys.Nodup) :
    (b.set k v).keys.Nodup := by
  rw [M.keys_set]
  split
  · exact h
  · next hk =>
    rw [List.nodup_append]
    refine ⟨h, List.nodup_singleton k, ?_⟩
    intro a ha hb
    rw [List.mem_singleton] at hb
    exact hk (hb ▸ ha)

theorem M.length_keys_set_le (b : M) (k : String) (v : BVal) :
    (b.set k v).keys.length ≤ b.keys.length + 1 := by
  rw [M.keys_set]
  split <;> simp

theorem M.setAll_nil (b : M) : b.setAll [] = b := rfl

theorem M.setAll_cons (b : M) (k : String) (v : BVal) (kvs : List (String × BVal)) :
    b.setAll ((k, v) :: kvs) = (b.set k v).setAll kvs := rfl

theorem M.setAll_append (b : M) (kvs1 kvs2 : List (String × BVal)) :
    b.setAll (kvs1 ++ kvs2) = (b.setAll kvs1).setAll kvs2 := by
  simp [M.setAll, List.foldl_append]

theorem M.nodup_keys_setAll (kvs : List (String × BVal)) :
    ∀ b : M, b.keys.Nodup → (b.setAll kvs).keys.Nodup := by
  induction kvs with
  | nil => exact fun b h => h
  | cons kv rest ih =>
    intro b h
    exact ih _ (M.nodup_keys_set b kv.1 kv.2 h)

theorem M.length_keys_setAll_le (kvs : List (String × BVal)) :
    ∀ b : M, (b.setAll kvs).keys.length ≤ b.keys.length + kvs.length := by
  induction kvs with
  | nil => exact fun b => Nat.le_refl _
  | cons kv rest ih =>
    intro b
    have h1 := ih (b.set kv.1 kv.2)
    have h2 := M.length_keys_set_le b kv.1 kv.2
    have h3 : b.setAll (kv :: rest) = (b.set kv.1 kv.2).setAll rest := rfl
    rw [h3, List.length_cons]
    omega

/-- Reading a key after a sequence of assignments: the assignments decide when one of
them wrote the key, and the starting document decides otherwise. -/
theorem M.get?_setAll (kvs : List (String × BVal)) (b : M) (k : String) :
    (b.setAll kvs).get? k =
      match (M.setAll [] kvs).get? k with
      | some v => some v
      | none => b.get? k := by
  induction kvs using List.reverseRecOn with
  | nil => simp [M.setAll, M.get?]
  | append_singleton init kv ih =>
    have e1 : b.setAll (init ++ [kv]) = (b.setAll init).set kv.1 kv.2 := by
      rw [M.setAll_append]
      rfl
    have e2 : M.setAll [] (init ++ [kv]) = (M.setAll [] init).set kv.1 kv.2 := by
      rw [M.setAll_append]
      rfl
    rw [e1, e2, M.get?_set, M.get?_set]
    by_cases hk : kv.1 = k
    · simp [hk]
    · simp only [if_neg hk]
      exact ih

/-! ## The assignments made by a translation -/

mutual
/-- A one-element query either fails, whatever the current document, or makes
exactly one assignment `b[k] = v`, whatever the current document. The key satisfies
`Pk` and the value `Pv`, for any predicates that hold of the keys and values the type
switch writes; `Pd` is the matching predicate on `$and` and `$or` sequences. -/
theorem translateQuery_one_entry (Pk : String → Prop) (Pv : BVal → Prop)
    (Pd : List M → Prop) (hand : Pk "$and") (hor : Pk "$or")
    (hfield : ∀ f, Pk (getField f)) (hval : ∀ v, Pv (.value v)) (hm : ∀ d, Pv (.m d))
    (hms : ∀ s, Pd s → Pv (.ms s)) (hnil : Pd [])
    (hsnoc : ∀ s k v, Pd s → Pk k → Pv v → Pd (s ++ [[(k, v)]])) :
    ∀ e : Expression,
      (∃ err, ∀ b, translateQuery.loop [e] b = .error err) ∨
      (∃ k v, (∀ b, translateQuery.loop [e] b = .ok (M.set b k v)) ∧ Pk k ∧ Pv v)
  | .And t => by
    have ht := translateQuery_subs_entries Pk Pv Pd hand hor hfield hval hm hms hnil hsnoc t
    cases hs : translateQuery.subs t [] with
    | error err =>
      left
      exact ⟨err, fun b => by rw [translateQuery_loop_and, hs]⟩
    | ok s' =>
      right
      refine ⟨"$and", .ms s', fun b => by rw [translateQuery_loop_and, hs], hand, hms _ ?_⟩
      rcases ht with ⟨err, herr⟩ | hok
      · rw [herr []] at hs
        cases hs
      · obtain ⟨ds, hds, hp⟩ := hok
        have := hds []
        rw [hs] at this
        cases this
        exact hp [] hnil
  | .Or t => by
    have ht := translateQuery_subs_entries Pk Pv Pd hand hor hfield hval hm hms hnil hsnoc t
    cases hs : translateQuery.subs t [] with
    | error err =>
      left
      exact ⟨err, fun b => by rw [translateQuery_loop_or, hs]⟩
    | ok s' =>
      right
      refine ⟨"$or", .ms s', fun b => by rw [translateQuery_loop_or, hs], hor, hms _ ?_⟩
      rcases ht with ⟨err, herr⟩ | hok
      · rw [herr []] at hs
        cases hs
      · obtain ⟨ds, hds, hp⟩ := hok
        have := hds []
        rw [hs] at this
        cases this
        exact hp [] hnil
  | .In f vs =>
    Or.inr ⟨getField f, .m [("$in", .is (valuesToInterface vs))],
      fun b => by simp [translateQuery.loop], hfield f, hm _⟩
  | .NotIn f vs =>
    Or.inr ⟨getField f, .m [("$nin", .is (valuesToInterface vs))],
      fun b => by simp [translateQuery.loop], hfield f, hm _⟩
  | .Equal f v =>
    Or.inr ⟨getField f, .value v, fun b => by simp [translateQuery.loop], hfield f, hval _⟩
  | .NotEqual f v =>
    Or.inr ⟨getField f, .m [("$ne", .value v)],
      fun b => by simp [translateQuery.loop], hfield f, hm _⟩
  | .GreaterThan f v =>
    Or.inr ⟨getField f, .m [("$gt", .value v)],
      fun b => by simp [translateQuery.loop], hfield f, hm _⟩
  | .GreaterOrEqual f v =>
    Or.inr ⟨getField f, .m [("$gte", .value v)],
      fun b => by simp [translateQuery.loop], hfield f, hm _⟩
  | .LowerThan f v =>
    Or.inr ⟨getField f, .m [("$lt", .value v)],
      fun b => by simp [translateQuery.loop], hfield f, hm _⟩
  | .LowerOrEqual f v =>
    Or.inr ⟨getField f, .m [("$lte", .value v)],
      fun b => by simp [translateQuery.loop], hfield f, hm _⟩
  | .Other _ => Or.inl ⟨.ErrNotImplemented, fun b => by simp [translateQuery.loop]⟩
/-- The inner loop of the `And` and `Or` cases either fails, whatever the current
slice, or appends a sequence `ds` of one-key documents to the current slice; `Pd` is
kept by the appending. -/
theorem translateQuery_subs_entries (Pk : String → Prop) (Pv : BVal → Prop)
    (Pd : List M → Prop) (hand : Pk "$and") (hor : Pk "$or")
    (hfield : ∀ f, Pk (getField f)) (hval : ∀ v, Pv (.value v)) (hm : ∀ d, Pv (.m d))
    (hms : ∀ s, Pd s → Pv (.ms s)) (hnil : Pd [])
    (hsnoc : ∀ s k v, Pd s → Pk k → Pv v → Pd (s ++ [[(k, v)]])) :
    ∀ t : List Expression,
      (∃ err, ∀ s, translateQuery.subs t s = .error err) ∨
      (∃ ds, (∀ s, translateQuery.subs t s = .ok (s ++ ds)) ∧
        ∀ s, Pd s → Pd (s ++ ds))
  | [] => Or.inr ⟨[], fun s => by simp [translateQuery.subs], fun s hs => by simpa using hs⟩
  | c :: rest => by
    have hc := translateQuery_one_entry Pk Pv Pd hand hor hfield hval hm hms hnil hsnoc c
    have hr := translateQuery_subs_entries Pk Pv Pd hand hor hfield hval hm hms hnil hsnoc rest
    rcases hc with ⟨err, herr⟩ | ⟨k, v, hkv, hk, hv⟩
    · left
      exact ⟨err, fun s => by rw [translateQuery_subs_cons, herr]⟩
    · rcases hr with ⟨err, herr⟩ | ⟨ds, hds, hp⟩
      · left
        exact ⟨err, fun s => by rw [translateQuery_subs_cons, hkv]; exact herr _⟩
      · right
        refine ⟨[(k, v)] :: ds, fun s => ?_, fun s hs => ?_⟩
        · rw [translateQuery_subs_cons, hkv]
          simp only [M.set]
          rw [hds]
          simp
        · have := hp _ (hsnoc s k v hs hk hv)
          simpa using this
end

/-- The loop of `translateQuery` on `q1 ++ q2` runs the loop on `q1`, then the loop on
`q2` from the document reached; an error in `q1` is returned at once. -/
theorem translateQuery_loop_append (q1 q2 : Query) :
    ∀ b : M, translateQuery.loop (q1 ++ q2) b =
      match translateQuery.loop q1 b with
      | .error err => .error err
      | .ok b' => translateQuery.loop q2 b' := by
  induction q1 with
  | nil =>
    intro b
    simp [translateQuery.loop]
  | cons e rest ih =>
    intro b
    rw [List.cons_append, translateQuery_loop_cons, translateQuery_loop_cons e rest]
    cases h : translateQuery.loop [e] b with
    | error err => rfl
    | ok b' => exact ih b'

/-- The loop of `translateQuery` either fails, whatever the current document, or makes
one assignment for each expression of the query, whatever the current document; the
keys assigned satisfy `Pk` and the values `Pv`. -/
theorem translateQuery_loop_sets (Pk : String → Prop) (Pv : BVal → Prop)
    (Pd : List M → Prop) (hand : Pk "$and") (hor : Pk "$or")
    (hfield : ∀ f, Pk (getField f)) (hval : ∀ v, Pv (.value v)) (hm : ∀ d, Pv (.m d))
    (hms : ∀ s, Pd s → Pv (.ms s)) (hnil : Pd [])
    (hsnoc : ∀ s k v, Pd s → Pk k → Pv v → Pd (s ++ [[(k, v)]])) (q : Query) :
    (∃ err, ∀ b, translateQuery.loop q b = .error err) ∨
    (∃ kvs : List (String × BVal), kvs.length = q.length ∧
      (∀ b, translateQuery.loop q b = .ok (M.setAll b kvs)) ∧
      ∀ kv ∈ kvs, Pk kv.1 ∧ Pv kv.2) := by
  induction q with
  | nil => exact Or.inr ⟨[], rfl, fun b => by simp [translateQuery.loop, M.setAll], by simp⟩
  | cons e rest ih =>
    rcases translateQuery_one_entry Pk Pv Pd hand hor hfield hval hm hms hnil hsnoc e with
      ⟨err, herr⟩ | ⟨k, v, hkv, hk, hv⟩
    · left
      exact ⟨err, fun b => by rw [translateQuery_loop_cons, herr]⟩
    · rcases ih with ⟨err, herr⟩ | ⟨kvs, hlen, hkvs, hp⟩
      · left
        exact ⟨err, fun b => by rw [translateQuery_loop_cons, hkv]; exact herr _⟩
      · right
        refine ⟨(k, v) :: kvs, by simp [hlen], fun b => ?_, ?_⟩
        · rw [translateQuery_loop_cons, hkv]
          exact hkvs _
        · intro kv hmem
          rcases List.mem_cons.mp hmem with rfl | hmem
          · exact ⟨hk, hv⟩
          · exact hp kv hmem

/-- The assignments of a translation, with no condition on keys and values. -/
theorem translateQuery_loop_sets_plain (q : Query) :
    (∃ err, ∀ b, translateQuery.loop q b = .error err) ∨
    (∃ kvs : List (String × BVal), kvs.length = q.length ∧
      ∀ b, translateQuery.loop q b = .ok (M.setAll b kvs)) := by
  rcases translateQuery_loop_sets (fun _ => True) (fun _ => True) (fun _ => True) trivial
      trivial (fun _ => trivial) (fun _ => trivial) (fun _ => trivial) (fun _ _ => trivial)
      trivial (fun _ _ _ _ _ _ => trivial) q with h | ⟨kvs, hlen, hkvs, _⟩
  · exact Or.inl h
  · exact Or.inr ⟨kvs, hlen, hkvs⟩

/-! ## Concatenation of queries -/

/-- C16: for every two queries `q1` and `q2`, `translateQuery (q1 ++ q2)` fails exactly
when `translateQuery q1` or `translateQuery q2` fails; when both succeed, with documents
`d1` and `d2`, it returns the right-biased union of the two: a document with pairwise
different keys, whose keys are those of `d2` and those of `d1`, in which every key of
`d2` has its value of `d2` and every key that is not a key of `d2` has what `d1` has. -/
theorem translateQuery_append (q1 q2 : Query) :
    ((∃ err, translateQuery (q1 ++ q2) = .error err) ↔
      ((∃ err, translateQuery q1 = .error err) ∨ ∃ err, translateQuery q2 = .error err)) ∧
    ∀ d1 d2 : M, translateQuery q1 = .ok d1 → translateQuery q2 = .ok d2 →
      ∃ d : M, translateQuery (q1 ++ q2) = .ok d ∧ d.keys.Nodup ∧
        (∀ k, k ∈ d.keys ↔ (k ∈ d2.keys ∨ k ∈ d1.keys)) ∧
        (∀ k v, d2.get? k = some v → d.get? k = some v) ∧
        (∀ k, k ∉ d2.keys → d.get? k = d1.get? k) := by
  rcases translateQuery_loop_sets_plain q1 with ⟨e1, h1⟩ | ⟨kvs1, _, h1⟩
  · have hq1 : translateQuery q1 = .error e1 := by rw [translateQuery, h1]
    have hq : translateQuery (q1 ++ q2) = .error e1 := by
      rw [translateQuery, translateQuery_loop_append, h1]
    refine ⟨⟨fun _ => Or.inl ⟨e1, hq1⟩, fun _ => ⟨e1, hq⟩⟩, ?_⟩
    intro d1 d2 hd1
    rw [hq1] at hd1
    cases hd1
  · have hq1 : translateQuery q1 = .ok (M.setAll [] kvs1) := by rw [translateQuery, h1]
    rcases translateQuery_loop_sets_plain q2 with ⟨e2, h2⟩ | ⟨kvs2, _, h2⟩
    · have hq2 : translateQuery q2 = .error e2 := by rw [translateQuery, h2]
      have hq : translateQuery (q1 ++ q2) = .error e2 := by
        rw [translateQuery, translateQuery_loop_append, h1]
        exact h2 _
      refine ⟨⟨fun _ => Or.inr ⟨e2, hq2⟩, fun _ => ⟨e2, hq⟩⟩, ?_⟩
      intro d1 d2 _ hd2
      rw [hq2] at hd2
      cases hd2
    · have hq2 : translateQuery q2 = .ok (M.setAll [] kvs2) := by rw [translateQuery, h2]
      have hq : translateQuery (q1 ++ q2) = .ok ((M.setAll [] kvs1).setAll kvs2) := by
        rw [translateQuery, translateQuery_loop_append, h1]
        exact h2 _
      constructor
      · constructor
        · rintro ⟨err, herr⟩
          rw [hq] at herr
          cases herr
        · rintro (⟨err, herr⟩ | ⟨err, herr⟩)
          · rw [hq1] at herr
            cases herr
          · rw [hq2] at herr
            cases herr
      · intro d1 d2 hd1 hd2
        rw [hq1] at hd1
        rw [hq2] at hd2
        cases hd1
        cases hd2
        have hget := M.get?_setAll kvs2 (M.setAll [] kvs1)
        refine ⟨_, hq, M.nodup_keys_setAll kvs2 _ (M.nodup_keys_setAll kvs1 [] ?_), ?_, ?_, ?_⟩
        · simp [M.keys]
        · intro k
          rw [M.mem_keys_iff, M.mem_keys_iff, M.mem_keys_iff, hget k]
          cases hk : (M.setAll [] kvs2).get? k with
          | none => simp
          | some v => simp
        · intro k v hk
          rw [hget k, hk]
        · intro k hk
          rw [M.mem_keys_iff] at hk
          rw [hget k]
          cases hk2 : (M.setAll [] kvs2).get? k with
          | none => rfl
          | some v => exact absurd ⟨v, hk2⟩ hk

theorem translateQuery_append_witness :
    ∃ d : M,
      translateQuery
        ([.Equal "status" (.str "open"), .GreaterThan "age" (.int 18)] ++
          [.LowerThan "age" (.int 65), .Equal "id" (.int 7)]) = .ok d ∧
      d.keys.Nodup ∧
      (∀ k, k ∈ d.keys ↔
        (k ∈ M.keys [("_payload.age", .m [("$lt", .value (.int 65))]),
            ("_id", .value (.int 7))] ∨
          k ∈ M.keys [("_payload.status", .value (.str "open")),
            ("_payload.age", .m [("$gt", .value (.int 18))])])) ∧
      (∀ k v,
        M.get? [("_payload.age", .m [("$lt", .value (.int 65))]),
          ("_id", .value (.int 7))] k = some v → d.get? k = some v) ∧
      (∀ k,
        k ∉ M.keys [("_payload.age", .m [("$lt", .value (.int 65))]),
          ("_id", .value (.int 7))] →
        d.get? k =
          M.get? [("_payload.status", .value (.str "open")),
            ("_payload.age", .m [("$gt", .value (.int 18))])] k) :=
  (translateQuery_append [.Equal "status" (.str "open"), .GreaterThan "age" (.int 18)]
      [.LowerThan "age" (.int 65), .Equal "id" (.int 7)]).2 _ _
    (by simp [translateQuery, translateQuery.loop, M.set, getField, prefix_])
    (by simp [translateQuery, translateQuery.loop, M.set, getField, prefix_])

/-! ## Number of keys -/

theorem docsSingle_snoc (k : String) (v : BVal) (hv : v.seqDocsSingle = true) :
    ∀ s : List M, docsSingle s = true → docsSingle (s ++ [[(k, v)]]) = true
  | [], _ => by simp [docsSingle, docSeqsSingle, hv]
  | d :: rest, h => by
    simp only [docsSingle, Bool.and_eq_true] at h
    simp only [List.cons_append, docsSingle, Bool.and_eq_true]
    exact ⟨h.1, docsSingle_snoc k v hv rest h.2⟩

theorem docSeqsSingle_set (k : String) (v : BVal) (hv : v.seqDocsSingle = true) :
    ∀ b : M, docSeqsSingle b = true → docSeqsSingle (b.set k v) = true
  | [], _ => by simp [M.set, docSeqsSingle, hv]
  | (k0, v0) :: rest, h => by
    simp only [docSeqsSingle, Bool.and_eq_true] at h
    by_cases h0 : k0 = k
    · simp [M.set, h0, docSeqsSingle, hv, h.2]
    · simp [M.set, h0, docSeqsSingle, h.1, docSeqsSingle_set k v hv rest h.2]

theorem docSeqsSingle_setAll (kvs : List (String × BVal))
    (hkvs : ∀ kv ∈ kvs, kv.2.seqDocsSingle = true) :
    ∀ b : M, docSeqsSingle b = true → docSeqsSingle (b.setAll kvs) = true := by
  induction kvs with
  | nil => exact fun b h => h
  | cons kv rest ih =>
    intro b h
    exact ih (fun kv' hm => hkvs kv' (List.mem_cons_of_mem kv hm)) _
      (docSeqsSingle_set kv.1 kv.2 (hkvs kv (List.mem_cons_self kv rest)) b h)

/-- C18: for every query that translates successfully, the returned document has
exactly one key when the query has one expression; every document in a `$and` or `$or`
sequence of the result, at any depth, has exactly one key; and the keys of the result
are pairwise different and at most as many as the expressions of the query. -/
theorem translateQuery_key_count (q : Query) (d : M) (h : translateQuery q = .ok d) :
    (q.length = 1 → d.keys.length = 1) ∧ docSeqsSingle d = true ∧
      d.keys.Nodup ∧ d.keys.length ≤ q.length := by
  rcases translateQuery_loop_sets (fun _ => True) (fun v => v.seqDocsSingle = true)
      (fun s => docsSingle s = true) trivial trivial (fun _ => trivial) (fun _ => rfl)
      (fun _ => rfl) (fun s hs => by simpa [BVal.seqDocsSingle] using hs) rfl
      (fun s k v hs _ hv => docsSingle_snoc k v hv s hs) q with ⟨err, herr⟩ | ⟨kvs, hlen, hkvs, hp⟩
  · rw [translateQuery, herr] at h
    cases h
  · rw [translateQuery, hkvs] at h
    cases h
    refine ⟨?_, ?_, ?_, ?_⟩
    · intro h1
      rw [← hlen] at h1
      match kvs, h1 with
      | [(k, v)], _ => simp [M.setAll, M.set, M.keys]
    · exact docSeqsSingle_setAll kvs (fun kv hm => (hp kv hm).2) [] rfl
    · exact M.nodup_keys_setAll kvs [] (by simp [M.keys])
    · have := M.length_keys_setAll_le kvs []
      rw [hlen] at this
      simpa [M.keys] using this

theorem translateQuery_key_count_witness :
    ∃ d : M,
      translateQuery [.And [.Equal "status" (.str "open"), .Or [.In "tag" [.str "a"]]]] =
        .ok d ∧
      d = [("$and", .ms [[("_payload.status", .value (.str "open"))],
        [("$or", .ms [[("_payload.tag", .m [("$in", .is [.str "a"])])]])]])] ∧
      ((List.length
          [Expression.And [.Equal "status" (.str "open"), .Or [.In "tag" [.str "a"]]]] = 1 →
        d.keys.length = 1) ∧
      docSeqsSingle d = true ∧ d.keys.Nodup ∧
      d.keys.length ≤ List.length
        [Expression.And [.Equal "status" (.str "open"), .Or [.In "tag" [.str "a"]]]]) :=
  have h : translateQuery
      [.And [.Equal "status" (.str "open"), .Or [.In "tag" [.str "a"]]]] =
      .ok [("$and", .ms [[("_payload.status", .value (.str "open"))],
        [("$or", .ms [[("_payload.tag", .m [("$in", .is [.str "a"])])]])]])] := by
    simp [translateQuery, translateQuery.loop, translateQuery.subs, M.set, getField, prefix_,
      valuesToInterface_eq]
  ⟨_, h, rfl, translateQuery_key_count _ _ h⟩

/-! ## Shape of the keys -/

theorem okKey_getField (f : String) : okKey (getField f) = true := by
  unfold getField
  split
  · rfl
  · have hp : prefix_.data <+: (prefix_ ++ f).data := by
      rw [String.data_append]
      exact List.prefix_append _ _
    simp [okKey, hp]

theorem okKey_cases (k : String) (h : okKey k = true) :
    k = "$and" ∨ k = "$or" ∨ k = "_id" ∨ ∃ f, k = "_payload." ++ f := by
  simp only [okKey, Bool.or_eq_true, beq_iff_eq, decide_eq_true_eq] at h
  rcases h with ((h | h) | h) | h
  · exact Or.inl h
  · exact Or.inr (Or.inl h)
  · exact Or.inr (Or.inr (Or.inl h))
  · obtain ⟨t, ht⟩ := h
    refine Or.inr (Or.inr (Or.inr ⟨⟨t⟩, String.ext ?_⟩))
    rw [String.data_append, ← ht]
    rfl

theorem getField_ne_combinator (f : String) :
    getField f ≠ "$and" ∧ getField f ≠ "$or" := by
  have h := getField_beginsWith f
  constructor <;>
  · intro hc
    rw [hc] at h
    exact absurd h (by decide)

theorem docsKeysOk_snoc (k : String) (v : BVal) (hk : okKey k = true)
    (hv : v.keysOk = true) :
    ∀ s : List M, docsKeysOk s = true → docsKeysOk (s ++ [[(k, v)]]) = true
  | [], _ => by simp [docsKeysOk, docKeysOk, hk, hv]
  | d :: rest, h => by
    simp only [docsKeysOk, Bool.and_eq_true] at h
    simp only [List.cons_append, docsKeysOk, Bool.and_eq_true]
    exact ⟨h.1, docsKeysOk_snoc k v hk hv rest h.2⟩

theorem docKeysOk_set (k : String) (v : BVal) (hk : okKey k = true) (hv : v.keysOk = true) :
    ∀ b : M, docKeysOk b = true → docKeysOk (b.set k v) = true
  | [], _ => by simp [M.set, docKeysOk, hk, hv]
  | (k0, v0) :: rest, h => by
    simp only [docKeysOk, Bool.and_eq_true] at h
    by_cases h0 : k0 = k
    · simp [M.set, h0, docKeysOk, hk, hv, h.2]
    · simp [M.set, h0, docKeysOk, h.1, docKeysOk_set k v hk hv rest h.2]

theorem docKeysOk_setAll (kvs : List (String × BVal))
    (hkvs : ∀ kv ∈ kvs, okKey kv.1 = true ∧ kv.2.keysOk = true) :
    ∀ b : M, docKeysOk b = true → docKeysOk (b.setAll kvs) = true := by
  induction kvs with
  | nil => exact fun b h => h
  | cons kv rest ih =>
    intro b h
    have hkv := hkvs kv (List.mem_cons_self kv rest)
    exact ih (fun kv' hm => hkvs kv' (List.mem_cons_of_mem kv hm)) _
      (docKeysOk_set kv.1 kv.2 hkv.1 hkv.2 b h)

theorem okKey_of_docKeysOk :
    ∀ (b : M), docKeysOk b = true → ∀ k ∈ b.keys, okKey k = true
  | [], _, k, hk => by simp [M.keys] at hk
  | (k0, v0) :: rest, h, k, hk => by
    simp only [docKeysOk, Bool.and_eq_true] at h
    simp only [M.keys, List.map_cons, List.mem_cons] at hk
    rcases hk with rfl | hk
    · exact h.1.1
    · exact okKey_of_docKeysOk rest h.2 k hk

/-- C17: for every successful translation, every key of the returned document is
`$and`, `$or`, `_id` or a string starting with `_payload.`, and so is every key of
every document nested under `$and` or `$or` at any depth. A field named `$and` or `$or`
is stored under `_payload.$and` or `_payload.$or`, and no field is stored under the
key `$and` or `$or` of a combinator. -/
theorem translateQuery_keys (q : Query) (d : M) (h : translateQuery q = .ok d) :
    (∀ k ∈ d.keys, k = "$and" ∨ k = "$or" ∨ k = "_id" ∨ ∃ f, k = "_payload." ++ f) ∧
    docKeysOk d = true ∧
    getField "$and" = "_payload.$and" ∧ getField "$or" = "_payload.$or" ∧
    ∀ f : String, getField f ≠ "$and" ∧ getField f ≠ "$or" := by
  have hd : docKeysOk d = true := by
    rcases translateQuery_loop_sets (fun k => okKey k = true) (fun v => v.keysOk = true)
        (fun s => docsKeysOk s = true) rfl rfl okKey_getField (fun _ => rfl)
        (fun _ => rfl) (fun s hs => by simpa [BVal.keysOk] using hs) rfl
        (fun s k v hs hk hv => docsKeysOk_snoc k v hk hv s hs) q with
      ⟨err, herr⟩ | ⟨kvs, _, hkvs, hp⟩
    · rw [translateQuery, herr] at h
      cases h
    · rw [translateQuery, hkvs] at h
      cases h
      exact docKeysOk_setAll kvs hp [] rfl
  exact ⟨fun k hk => okKey_cases k (okKey_of_docKeysOk d hd k hk), hd, by decide, by decide,
    getField_ne_combinator⟩

theorem translateQuery_keys_witness :
    ∃ d : M,
      translateQuery
        [.Equal "$and" (.int 1), .And [.Equal "id" (.int 7), .Or [.LowerThan "$or" (.int 3)]],
          .Equal "$and" (.int 2)] = .ok d ∧
      d = [("_payload.$and", .value (.int 2)),
        ("$and", .ms [[("_id", .value (.int 7))],
          [("$or", .ms [[("_payload.$or", .m [("$lt", .value (.int 3))])]])]])] ∧
      ((∀ k ∈ d.keys, k = "$and" ∨ k = "$or" ∨ k = "_id" ∨ ∃ f, k = "_payload." ++ f) ∧
        docKeysOk d = true ∧
        getField "$and" = "_payload.$and" ∧ getField "$or" = "_payload.$or" ∧
        ∀ f : String, getField f ≠ "$and" ∧ getField f ≠ "$or") :=
  have h : translateQuery
      [.Equal "$and" (.int 1), .And [.Equal "id" (.int 7), .Or [.LowerThan "$or" (.int 3)]],
        .Equal "$and" (.int 2)] =
      .ok [("_payload.$and", .value (.int 2)),
        ("$and", .ms [[("_id", .value (.int 7))],
          [("$or", .ms [[("_payload.$or", .m [("$lt", .value (.int 3))])]])]])] := by
    simp [translateQuery, translateQuery.loop, translateQuery.subs, M.set, getField, prefix_]
  ⟨_, h, rfl, translateQuery_keys _ _ h⟩

/-! ## Distinct fields -/

/-- Two different logical field names are never mapped to the same key. -/
theorem getField_injective (f g : String) (h : getField f = getField g) : f = g := by
  have hne : ∀ x : String, "_id" ≠ prefix_ ++ x := by
    intro x hx
    have h1 : (prefix_ ++ x).data[1]? = some 'p' := by
      rw [String.data_append]
      rfl
    rw [← hx] at h1
    exact absurd h1 (by decide)
  unfold getField at h
  by_cases hf : f = "id"
  · by_cases hg : g = "id"
    · rw [hf, hg]
    · rw [if_pos hf, if_neg hg] at h
      exact absurd h (hne g)
  · by_cases hg : g = "id"
    · rw [if_neg hf, if_pos hg] at h
      exact absurd h.symm (hne f)
    · rw [if_neg hf, if_neg hg] at h
      have hdata := congrArg String.data h
      rw [String.data_append, String.data_append] at hdata
      exact String.ext (List.append_cancel_left hdata)

/-- A leaf expression on the field `f` makes one assignment under `getField f`. -/
theorem translateQuery_loop_leaf (e : Expression) (f : String)
    (h : e.leafField = some f) :
    ∃ v, ∀ b, translateQuery.loop [e] b = .ok (M.set b (getField f) v) := by
  cases e with
  | And t => simp [Expression.leafField] at h
  | Or t => simp [Expression.leafField] at h
  | Other n => simp [Expression.leafField] at h
  | In g vs =>
    cases h
    exact ⟨.m [("$in", .is (valuesToInterface vs))], fun b => by simp [translateQuery.loop]⟩
  | NotIn g vs =>
    cases h
    exact ⟨.m [("$nin", .is (valuesToInterface vs))], fun b => by simp [translateQuery.loop]⟩
  | Equal g v =>
    cases h
    exact ⟨.value v, fun b => by simp [translateQuery.loop]⟩
  | NotEqual g v =>
    cases h
    exact ⟨.m [("$ne", .value v)], fun b => by simp [translateQuery.loop]⟩
  | GreaterThan g v =>
    cases h
    exact ⟨.m [("$gt", .value v)], fun b => by simp [translateQuery.loop]⟩
  | GreaterOrEqual g v =>
    cases h
    exact ⟨.m [("$gte", .value v)], fun b => by simp [translateQuery.loop]⟩
  | LowerThan g v =>
    cases h
    exact ⟨.m [("$lt", .value v)], fun b => by simp [translateQuery.loop]⟩
  | LowerOrEqual g v =>
    cases h
    exact ⟨.m [("$lte", .value v)], fun b => by simp [translateQuery.loop]⟩

theorem M.setAll_of_nodup (kvs : List (String × BVal)) :
    ∀ b : M, (b.keys ++ M.keys kvs).Nodup → b.setAll kvs = b ++ kvs := by
  induction kvs with
  | nil => exact fun b _ => by simp [M.setAll]
  | cons kv rest ih =>
    intro b h
    obtain ⟨k, v⟩ := kv
    have hk : k ∉ b.keys := by
      intro hk
      rw [List.nodup_append] at h
      exact h.2.2 hk (by simp [M.keys])
    rw [M.setAll_cons, M.set_of_not_mem b k v hk, ih]
    · simp
    · have : M.keys (b ++ [(k, v)]) ++ M.keys rest = b.keys ++ M.keys ((k, v) :: rest) := by
        simp [M.keys]
      rw [this]
      exact h

theorem M.get?_of_mem :
    ∀ (b : M) (k : String) (v : BVal), b.keys.Nodup → (k, v) ∈ b → b.get? k = some v
  | [], _, _, _, h => by simp at h
  | (k0, v0) :: rest, k, v, hn, h => by
    simp only [M.keys, List.map_cons, List.nodup_cons] at hn
    rcases List.mem_cons.mp h with heq | hmem
    · cases heq
      simp [M.get?]
    · have hne : ¬ k0 = k := by
        intro h0
        apply hn.1
        rw [h0]
        exact List.mem_map_of_mem Prod.fst hmem
      simp only [M.get?, if_neg hne]
      exact M.get?_of_mem rest k v hn.2 hmem

/-- The assignments made by a query of leaf expressions on the fields `fs`. -/
theorem translateQuery_loop_leaves {q : Query} {fs : List String}
    (h : List.Forall₂ (fun e f => e.leafField = some f) q fs) :
    ∃ kvs : List (String × BVal), M.keys kvs = fs.map getField ∧
      (∀ b, translateQuery.loop q b = .ok (M.setAll b kvs)) ∧
      ∀ e ∈ q, ∀ f, e.leafField = some f →
        ∃ v, (getField f, v) ∈ kvs ∧ translateQuery [e] = .ok [(getField f, v)] := by
  induction h with
  | nil => exact ⟨[], rfl, fun b => by simp [translateQuery.loop, M.setAll], by simp⟩
  | @cons e f rest fs' hef _ ih =>
    obtain ⟨kvs, hkeys, hloop, hmem⟩ := ih
    obtain ⟨v, hv⟩ := translateQuery_loop_leaf e f hef
    refine ⟨(getField f, v) :: kvs, ?_, fun b => ?_, ?_⟩
    · simp only [M.keys, List.map_cons] at hkeys ⊢
      rw [hkeys]
    · rw [translateQuery_loop_cons, hv]
      exact hloop _
    · intro e' he' f' hf'
      rcases List.mem_cons.mp he' with rfl | he'
      · rw [hef] at hf'
        cases hf'
        exact ⟨v, List.mem_cons_self _ _, by rw [translateQuery, hv]; rfl⟩
      · obtain ⟨v', hv', ht⟩ := hmem e' he' f' hf'
        exact ⟨v', List.mem_cons_of_mem _ hv', ht⟩

/-- C11: for every query made only of leaf (non-`And`, non-`Or`) supported expressions
whose logical field names `fs` are pairwise distinct, `translateQuery` returns a
document with exactly one key per expression: its keys are pairwise different, as many
as the expressions, and are exactly the `getField f` for `f` in `fs`; the value under
`getField f` is the value that translating the expression on `f` alone stores. No two
distinct logical fields are mapped to the same key. -/
theorem translateQuery_distinct_fields (q : Query) (fs : List String)
    (hq : List.Forall₂ (fun e f => e.leafField = some f) q fs) (hd : fs.Nodup) :
    ∃ d : M, translateQuery q = .ok d ∧ d.keys.Nodup ∧ d.keys.length = q.length ∧
      (∀ k, k ∈ d.keys ↔ ∃ f ∈ fs, k = getField f) ∧
      (∀ e ∈ q, ∀ f, e.leafField = some f →
        ∃ v, translateQuery [e] = .ok [(getField f, v)] ∧ d.get? (getField f) = some v) ∧
      ∀ f g : String, getField f = getField g → f = g := by
  obtain ⟨kvs, hkeys, hloop, hmem⟩ := translateQuery_loop_leaves hq
  have hnd : (M.keys kvs).Nodup := by
    rw [hkeys]
    exact List.Nodup.map (fun f g hfg => getField_injective f g hfg) hd
  have hset : M.setAll [] kvs = kvs := by
    rw [M.setAll_of_nodup kvs [] (by simpa [M.keys] using hnd)]
    rfl
  refine ⟨kvs, by rw [translateQuery, hloop, hset], hnd, ?_, ?_, ?_, getField_injective⟩
  · rw [hkeys, List.length_map, hq.length_eq]
  · intro k
    rw [hkeys, List.mem_map]
    constructor
    · rintro ⟨f, hf, rfl⟩
      exact ⟨f, hf, rfl⟩
    · rintro ⟨f, hf, rfl⟩
      exact ⟨f, hf, rfl⟩
  · intro e he f hf
    obtain ⟨v, hv, ht⟩ := hmem e he f hf
    exact ⟨v, ht, M.get?_of_mem kvs _ v hnd hv⟩

theorem translateQuery_distinct_fields_witness :
    List.Forall₂ (fun e f => Expression.leafField e = some f)
      [.Equal "id" (.int 7), .GreaterThan "idx" (.int 1), .In "" [.str "a"]] ["id", "idx", ""] ∧
    ["id", "idx", ""].Nodup ∧
    ∃ d : M,
      translateQuery [.Equal "id" (.int 7), .GreaterThan "idx" (.int 1), .In "" [.str "a"]] =
        .ok d ∧
      d.keys.Nodup ∧
      d.keys.length =
        List.length
          [Expression.Equal "id" (.int 7), .GreaterThan "idx" (.int 1), .In "" [.str "a"]] ∧
      (∀ k, k ∈ d.keys ↔ ∃ f ∈ ["id", "idx", ""], k = getField f) ∧
      (∀ e ∈ [Expression.Equal "id" (.int 7), .GreaterThan "idx" (.int 1), .In "" [.str "a"]],
        ∀ f, e.leafField = some f →
          ∃ v, translateQuery [e] = .ok [(getField f, v)] ∧ d.get? (getField f) = some v) ∧
      ∀ f g : String, getField f = getField g → f = g :=
  have hq : List.Forall₂ (fun e f => Expression.leafField e = some f)
      [.Equal "id" (.int 7), .GreaterThan "idx" (.int 1), .In "" [.str "a"]]
      ["id", "idx", ""] :=
    List.Forall₂.cons rfl (List.Forall₂.cons rfl (List.Forall₂.cons rfl List.Forall₂.nil))
  ⟨hq, by decide, translateQuery_distinct_fields _ _ hq (by decide)⟩

end Mongo
